import Mathlib

/-!
Shallow embedding of `duplicatefilefinder.py`, the progressive three-stage
duplicate-file detection pipeline.  File contents are modelled as lists of
byte values; the file system is a map from paths to `Option` contents, where
`none` means the file cannot be read (the Python code raises an exception at
the point of such a read).  The SHA-256 digest of `hashlib` is modelled as an
abstract digest function `sha`; theorems that depend on its collision
freeness take `Function.Injective sha` as an explicit hypothesis.
-/

/-- A file path, as handled by the script (a string). -/
abbrev FPath := String

/-- The file system seen by the script: each path either has readable
content (a byte list) or raises on access (`none`). -/
abbrev FS := FPath → Option (List Nat)

/-- The content of a readable path (junk value `[]` for unreadable ones;
only used beneath a readability hypothesis). -/
def content (fs : FS) (p : FPath) : List Nat := (fs p).getD []

/-- One step of the Adler-32 state update of `zlib.adler32`:
`a = (a + byte) % 65521; b = (b + a) % 65521`. -/
def adlerStep (ab : Nat × Nat) (x : Nat) : Nat × Nat :=
  ((ab.1 + x) % 65521, (ab.2 + (ab.1 + x) % 65521) % 65521)

/-- `zlib.adler32 data`: fold the Adler-32 update over the bytes starting
from `(1, 0)` and combine the two 16-bit halves into one 32-bit value. -/
def adler32 (data : List Nat) : Nat :=
  let s := data.foldl adlerStep (1, 0)
  s.2 * 65536 + s.1

/-- The read loop `iter(lambda: inputfile.read(1024 * 8), b'')` in
`get_hash_key`: split the content into successive chunks of 8192 bytes.  The
first argument is fuel bounding the number of reads; `c.length` reads always
suffice because every read from a nonempty rest consumes at least one
byte. -/
def readChunksAux : Nat → List Nat → List (List Nat)
  | 0, _ => []
  | fuel + 1, c =>
    if c.isEmpty then [] else c.take 8192 :: readChunksAux fuel (c.drop 8192)

/-- The chunks `get_hash_key` feeds to the hash object, in order. -/
def readChunks (c : List Nat) : List (List Nat) := readChunksAux c.length c

/-- `os.path.getsize(filename)` as used by the size stage: byte length of
the file, raising (`none`) when the file cannot be accessed. -/
def getsize (fs : FS) (filename : FPath) : Option Nat :=
  (fs filename).map List.length

/-- `get_crc_key(filename)`: `zlib.adler32` of the first 1024 bytes of the
file (`inputfile.read(1024)`). -/
def get_crc_key (fs : FS) (filename : FPath) : Option Nat :=
  (fs filename).map (fun c => adler32 (c.take 1024))

/-- `get_hash_key(filename)`: the digest of a hash object updated with each
8192-byte chunk of the file in turn.  The hash object's state is modelled as
the accumulated byte list handed to the abstract digest `sha` at the end. -/
def get_hash_key (sha : List Nat → List Nat) (fs : FS) (filename : FPath) :
    Option (List Nat) :=
  (fs filename).map
    (fun c => sha ((readChunks c).foldl (fun acc chunk => acc ++ chunk) []))

/-- `duplicates.setdefault(key, []).append(filepath)` on an
insertion-ordered dictionary, modelled as an association list: append the
path to the entry of its key, or add a fresh entry at the end. -/
def addToGroups [DecidableEq κ] (gs : List (κ × List FPath)) (k : κ) (p : FPath) :
    List (κ × List FPath) :=
  match gs with
  | [] => [(k, [p])]
  | (k2, ps) :: rest =>
    if k2 = k then (k2, ps ++ [p]) :: rest else (k2, ps) :: addToGroups rest k p

/-- One stage scan, `for i, filepath in enumerate(files, start=1): key =
keyfunction(filepath); duplicates.setdefault(key, []).append(filepath)`,
starting from the cleared dictionary.  A raising key function (unreadable
file) aborts the whole scan, as the uncaught Python exception would. -/
def run_stage [DecidableEq κ] (keyfunction : FPath → Option κ)
    (files : List FPath) : Option (List (κ × List FPath)) :=
  files.foldlM (fun gs p => (keyfunction p).map (fun k => addToGroups gs k p)) []

/-- The same scan for a key function that cannot raise. -/
def group_files [DecidableEq κ] (key : FPath → κ) (files : List FPath) :
    List (κ × List FPath) :=
  files.foldl (fun gs p => addToGroups gs (key p) p) []

/-- Insert a group into a list of groups ordered by decreasing member count,
before the first group with at most as many members — the position Python's
stable `sorted(..., key=len, reverse=True)` gives to an earlier-discovered
group relative to an already sorted rest. -/
def insertGroup (g : List FPath) : List (List FPath) → List (List FPath)
  | [] => [g]
  | h :: t => if g.length < h.length then h :: insertGroup g t else g :: h :: t

/-- `sorted(duplicates.values(), key=len, reverse=True)`: stable sort of the
group member lists by decreasing length. -/
def sortGroups : List (List FPath) → List (List FPath)
  | [] => []
  | g :: gs => insertGroup g (sortGroups gs)

/-- Python's `lst[:n]` slice: the whole list for `None`, the first `n`
elements for `n ≥ 0`, and all but the final `-n` elements for negative
`n`. -/
def pySlice (l : List α) : Option Int → List α
  | none => l
  | some n => if n < 0 then l.take (l.length - n.natAbs) else l.take n.toNat

/-- The groups whose files survive a stage: slice the sorted group list to
the stage budget, then keep only the multi-member groups
(`sortedfiles[:topcount]` with the `if len(filepaths) > 1` guard). -/
def kept_groups (vals : List (List FPath)) (topcount : Option Int) :
    List (List FPath) :=
  (pySlice (sortGroups vals) topcount).filter (fun g => decide (1 < g.length))

/-- `files = [filepath for filepaths in sortedfiles[:topcount]
if len(filepaths) > 1 for filepath in filepaths]`: the candidate list handed
to the next stage. -/
def next_files (gs : List (κ × List FPath)) (topcount : Option Int) :
    List FPath :=
  (kept_groups (gs.map Prod.snd) topcount).flatten

/-- `top**2 if top else None`: the size-stage budget (`top` is falsy exactly
for `None` and `0`). -/
def size_budget : Option Int → Option Int
  | none => none
  | some t => if t = 0 then none else some (t * t)

/-- `top*2 if top else None`: the CRC-stage budget. -/
def crc_budget : Option Int → Option Int
  | none => none
  | some t => if t = 0 then none else some (t * 2)

/-- The size stage scan (first entry of `iterations`). -/
def sizeStage (fs : FS) (files : List FPath) :
    Option (List (Nat × List FPath)) :=
  run_stage (getsize fs) files

/-- The CRC stage scan (second entry of `iterations`). -/
def crcStage (fs : FS) (files : List FPath) :
    Option (List (Nat × List FPath)) :=
  run_stage (get_crc_key fs) files

/-- The full-hash stage scan (third entry of `iterations`). -/
def hashStage (sha : List Nat → List Nat) (fs : FS) (files : List FPath) :
    Option (List (List Nat × List FPath)) :=
  run_stage (get_hash_key sha fs) files

/-- `filter_duplicate_files(files, top)`: run the three stages of
`iterations` in order — size, CRC, full hash — each rebuilding the cleared
`duplicates` dict from the current candidate list and handing the
sliced-and-filtered flattening of its sorted groups to the next stage;
return every multi-member group of the final (hash) dictionary.  (After the
last stage the Python loop also computes an unused `files` list with
`topcount = None`; it does not affect the returned value.) -/
def filter_duplicate_files (fs : FS) (sha : List Nat → List Nat)
    (files : List FPath) (top : Option Int) : Option (List (List FPath)) :=
  (sizeStage fs files).bind (fun g1 =>
    (crcStage fs (next_files g1 (size_budget top))).bind (fun g2 =>
      (hashStage sha fs (next_files g2 (crc_budget top))).map (fun g3 =>
        (g3.map Prod.snd).filter (fun l => decide (1 < l.length)))))

/-- The `top` value the `__main__` block hands to the pipeline:
`parse_arguments` turns `-a` or `top == 0` into `None` (lines 57-58) and the
call site passes `ARGS.top if ARGS.fast else None` (line 148).  No check
rejects a negative value. -/
def effective_top (fast show_all : Bool) (top : Int) : Option Int :=
  if fast then (if show_all || top == 0 then none else some top) else none

/-- Modelled from the spec for the refinement claim C8: first discard every
group with fewer than 2 members, then sort the survivors by member count
descending and keep the top `n` groups. -/
def spec_kept_groups (vals : List (List FPath)) (n : Nat) : List (List FPath) :=
  (sortGroups (vals.filter (fun g => decide (1 < g.length)))).take n

/-- The candidate list the spec's step order hands to the next stage. -/
def spec_next_files (vals : List (List FPath)) (n : Nat) : List FPath :=
  (spec_kept_groups vals n).flatten

/-- The size key as a total function of readable content. -/
def key_size (fs : FS) (p : FPath) : Nat := (content fs p).length

/-- The CRC key as a total function of readable content. -/
def key_crc (fs : FS) (p : FPath) : Nat := adler32 ((content fs p).take 1024)

/-- The full-hash key as a total function of readable content. -/
def key_hash (sha : List Nat → List Nat) (fs : FS) (p : FPath) : List Nat :=
  sha (content fs p)

/-- Concrete file system: two readable identical one-byte files `"a"` and
`"b"`; everything else unreadable. -/
def fsW : FS := fun p => if p = "a" ∨ p = "b" then some [7] else none

/-- Concrete file system where `"a"` and `"c"` are readable and identical
but `"b"` cannot be read. -/
def fs3W : FS := fun p => if p = "a" ∨ p = "c" then some [7] else none

/-- A concrete injective digest used to instantiate the abstract hash. -/
def shaW : List Nat → List Nat := fun c => c

/-- All members of all groups, in dictionary order. -/
def groupJoin (gs : List (κ × List FPath)) : List FPath :=
  (gs.map Prod.snd).flatten

/-- Invariant tying the dictionary built so far to the prefix `pre` of the
candidate list already scanned: keys are distinct, every entry holds exactly
the scanned files with that key in scan order, and every scanned file's key
is present. -/
def GroupsInv [DecidableEq κ] (key : FPath → κ) (pre : List FPath)
    (gs : List (κ × List FPath)) : Prop :=
  (gs.map Prod.fst).Nodup ∧
  (∀ k ps, (k, ps) ∈ gs → ps = pre.filter (fun q => decide (key q = k))) ∧
  (∀ p ∈ pre, key p ∈ gs.map Prod.fst)

/-- Sortedness by weakly decreasing member count. -/
def DescLen (l : List (List FPath)) : Prop :=
  List.Pairwise (fun a b => b.length ≤ a.length) l

/-! ### Generic list helpers -/

/-- A list with two distinct members has at least two elements. -/
theorem two_le_length_of_mem_ne {l : List FPath} {a b : FPath}
    (ha : a ∈ l) (hb : b ∈ l) (hab : a ≠ b) : 2 ≤ l.length := by
  match l with
  | [] => cases ha
  | [x] =>
    simp only [List.mem_singleton] at ha hb
    exact absurd (ha.trans hb.symm) hab
  | x :: y :: t =>
    have : (x :: y :: t).length = t.length + 2 := by simp
    omega

/-- `take` yields an initial segment. -/
theorem take_isPre (n : Nat) (l : List α) : l.take n <+: l :=
  ⟨l.drop n, List.take_append_drop n l⟩

/-- Flattening a sublist of a list of lists yields a sublist of the
flattening. -/
theorem sublist_flatten_of_sublist {l₁ l₂ : List (List α)}
    (h : List.Sublist l₁ l₂) : List.Sublist l₁.flatten l₂.flatten := by
  induction h with
  | slnil => exact List.Sublist.refl _
  | cons a _ ih =>
    simp only [List.flatten_cons]
    exact ih.trans (List.sublist_append_right a _)
  | cons₂ a _ ih =>
    simp only [List.flatten_cons]
    exact ih.append_left a

/-- `o.map f = some (f (o.getD d))` for a populated option. -/
theorem option_eq_some_getD {o : Option β} (h : o.isSome) (d : β) :
    o = some (o.getD d) := by
  cases o with
  | none => cases h
  | some a => rfl

/-! ### The per-stage dictionary (`duplicates`) -/

/-- Keys after `addToGroups`: unchanged when the key is present, otherwise
the new key is appended. -/
theorem addToGroups_fst [DecidableEq κ] (gs : List (κ × List FPath)) (k : κ)
    (p : FPath) :
    (addToGroups gs k p).map Prod.fst =
      if k ∈ gs.map Prod.fst then gs.map Prod.fst
      else gs.map Prod.fst ++ [k] := by
  induction gs with
  | nil => simp [addToGroups]
  | cons e rest ih =>
    obtain ⟨k2, ps⟩ := e
    by_cases hk : k2 = k
    · subst hk
      simp [addToGroups]
    · have hne : ¬(k = k2) := fun h => hk h.symm
      by_cases hm : k ∈ rest.map Prod.fst
      · simp [addToGroups, hk, ih, hm, hne]
      · simp [addToGroups, hk, ih, hm, hne]

/-- Entry provenance in `addToGroups`, assuming distinct keys: an entry
either was already present (with a different key), or is the fresh entry for
an absent key, or is the entry of `k` with `p` appended. -/
theorem mem_addToGroups [DecidableEq κ] {gs : List (κ × List FPath)} {k : κ}
    {p : FPath} {k3 : κ} {qs : List FPath}
    (hnd : (gs.map Prod.fst).Nodup) (hm : (k3, qs) ∈ addToGroups gs k p) :
    (k3 ≠ k ∧ (k3, qs) ∈ gs) ∨
    (k3 = k ∧ qs = [p] ∧ k ∉ gs.map Prod.fst) ∨
    (k3 = k ∧ ∃ ps, (k, ps) ∈ gs ∧ qs = ps ++ [p]) := by
  induction gs with
  | nil =>
    have hpair : (k3, qs) = (k, [p]) := by simpa [addToGroups] using hm
    have h1 : k3 = k := congrArg Prod.fst hpair
    have h2 : qs = [p] := congrArg Prod.snd hpair
    exact Or.inr (Or.inl ⟨h1, h2, by simp⟩)
  | cons e rest ih =>
    obtain ⟨k2, ps⟩ := e
    have hnd1 : k2 ∉ rest.map Prod.fst := (List.nodup_cons.1 hnd).1
    have hnd2 : (rest.map Prod.fst).Nodup := (List.nodup_cons.1 hnd).2
    by_cases hk : k2 = k
    · subst hk
      rw [show addToGroups ((k2, ps) :: rest) k2 p = (k2, ps ++ [p]) :: rest
        from by simp [addToGroups]] at hm
      rcases List.mem_cons.1 hm with heq | hmem
      · have h1 : k3 = k2 := congrArg Prod.fst heq
        have h2 : qs = ps ++ [p] := congrArg Prod.snd heq
        exact Or.inr (Or.inr ⟨h1, ps, List.mem_cons_self _ _, h2⟩)
      · refine Or.inl ⟨?_, List.mem_cons_of_mem _ hmem⟩
        intro hq
        subst hq
        exact hnd1 (List.mem_map.2 ⟨(k3, qs), hmem, rfl⟩)
    · rw [show addToGroups ((k2, ps) :: rest) k p = (k2, ps) :: addToGroups rest k p
        from by simp [addToGroups, hk]] at hm
      rcases List.mem_cons.1 hm with heq | hmem
      · have h1 : k3 = k2 := congrArg Prod.fst heq
        have h2 : qs = ps := congrArg Prod.snd heq
        subst h1; subst h2
        exact Or.inl ⟨hk, List.mem_cons_self _ _⟩
      · rcases ih hnd2 hmem with ⟨h1, h2⟩ | ⟨h1, h2, h3⟩ | ⟨h1, ps2, h2, h3⟩
        · exact Or.inl ⟨h1, List.mem_cons_of_mem _ h2⟩
        · refine Or.inr (Or.inl ⟨h1, h2, ?_⟩)
          intro hmm
          rcases List.mem_cons.1 hmm with h | h
          · exact hk h.symm
          · exact h3 h
        · exact Or.inr (Or.inr ⟨h1, ps2, List.mem_cons_of_mem _ h2, h3⟩)

/-- `GroupsInv` is preserved by scanning one more file. -/
theorem GroupsInv.step [DecidableEq κ] {key : FPath → κ} {pre : List FPath}
    {gs : List (κ × List FPath)} (h : GroupsInv key pre gs) (p : FPath) :
    GroupsInv key (pre ++ [p]) (addToGroups gs (key p) p) := by
  obtain ⟨hnd, hchar, hcover⟩ := h
  have hfst := addToGroups_fst gs (key p) p
  have hfree : key p ∉ gs.map Prod.fst → pre.filter (fun q => decide (key q = key p)) = [] := by
    intro habs
    refine List.filter_eq_nil_iff.2 fun q hq => ?_
    simp only [decide_eq_true_eq]
    intro hkq
    exact habs (hkq ▸ hcover q hq)
  refine ⟨?_, ?_, ?_⟩
  · rw [hfst]
    by_cases hm : key p ∈ gs.map Prod.fst
    · simpa [hm] using hnd
    · simp only [if_neg hm]
      simp [List.nodup_append, hnd, hm]
  · intro k ps hps
    rcases mem_addToGroups hnd hps with ⟨h1, h2⟩ | ⟨h1, h2, h3⟩ | ⟨h1, ps2, h2, h3⟩
    · rw [hchar k ps h2, List.filter_append]
      have : ¬(decide (key p = k) = true) := by
        simp only [decide_eq_true_eq]
        exact fun hq => h1 (hq ▸ rfl)
      simp [List.filter, this]
    · subst h1
      rw [h2, List.filter_append, hfree h3]
      simp [List.filter]
    · subst h1
      rw [h3, hchar _ ps2 h2, List.filter_append]
      simp [List.filter]
  · intro q hq
    rw [hfst]
    rcases List.mem_append.1 hq with hq | hq
    · have := hcover q hq
      by_cases hm : key p ∈ gs.map Prod.fst
      · simpa [hm] using this
      · simp only [if_neg hm, List.mem_append]
        exact Or.inl this
    · simp only [List.mem_singleton] at hq
      subst hq
      by_cases hm : key q ∈ gs.map Prod.fst
      · simp [hm]
      · simp [if_neg hm]

/-- The full scan satisfies the dictionary invariant. -/
theorem group_files_inv [DecidableEq κ] (key : FPath → κ) (files : List FPath) :
    GroupsInv key files (group_files key files) := by
  induction files using List.reverseRecOn with
  | nil =>
    refine ⟨by simp [group_files], ?_, by simp⟩
    intro k ps hps
    simp [group_files] at hps
  | append_singleton fl p ih =>
    have heq : group_files key (fl ++ [p]) =
        addToGroups (group_files key fl) (key p) p := by
      simp [group_files, List.foldl_append]
    rw [heq]
    exact ih.step p

/-- Keys of the per-stage dictionary are distinct. -/
theorem group_files_keys_nodup [DecidableEq κ] (key : FPath → κ)
    (files : List FPath) : ((group_files key files).map Prod.fst).Nodup :=
  (group_files_inv key files).1

/-- Every entry of the dictionary holds exactly the scanned files with that
key, in scan order. -/
theorem group_files_entry [DecidableEq κ] {key : FPath → κ} {files : List FPath}
    {k : κ} {ps : List FPath} (h : (k, ps) ∈ group_files key files) :
    ps = files.filter (fun q => decide (key q = k)) :=
  (group_files_inv key files).2.1 k ps h

/-- Every scanned file has an entry: the one of its key. -/
theorem mem_group_files_self [DecidableEq κ] {key : FPath → κ}
    {files : List FPath} {p : FPath} (hp : p ∈ files) :
    (key p, files.filter (fun q => decide (key q = key p))) ∈
      group_files key files := by
  have h3 := (group_files_inv key files).2.2 p hp
  obtain ⟨⟨k, ps⟩, he, hfst⟩ := List.mem_map.1 h3
  simp only at hfst
  subst hfst
  have hc := group_files_entry he
  subst hc
  exact he

/-- `addToGroups` adds exactly one occurrence of `p` to the members. -/
theorem addToGroups_groupJoin_perm [DecidableEq κ] (gs : List (κ × List FPath))
    (k : κ) (p : FPath) :
    List.Perm (groupJoin (addToGroups gs k p)) (groupJoin gs ++ [p]) := by
  induction gs with
  | nil => simp [addToGroups, groupJoin]
  | cons e rest ih =>
    obtain ⟨k2, ps⟩ := e
    simp only [groupJoin] at ih
    by_cases hk : k2 = k
    · subst hk
      rw [show addToGroups ((k2, ps) :: rest) k2 p = (k2, ps ++ [p]) :: rest
        from by simp [addToGroups]]
      simp only [groupJoin, List.map_cons, List.flatten_cons]
      have h1 : (ps ++ [p]) ++ (rest.map Prod.snd).flatten
          = ps ++ ([p] ++ (rest.map Prod.snd).flatten) := by
        simp [List.append_assoc]
      have h2 : List.Perm (ps ++ ([p] ++ (rest.map Prod.snd).flatten))
          (ps ++ ((rest.map Prod.snd).flatten ++ [p])) :=
        List.Perm.append_left _ List.perm_append_comm
      have h3 : ps ++ ((rest.map Prod.snd).flatten ++ [p])
          = (ps ++ (rest.map Prod.snd).flatten) ++ [p] := by
        simp [List.append_assoc]
      rw [h1, ← h3]
      exact h2
    · rw [show addToGroups ((k2, ps) :: rest) k p = (k2, ps) :: addToGroups rest k p
        from by simp [addToGroups, hk]]
      simp only [groupJoin, List.map_cons, List.flatten_cons]
      have h2 : List.Perm (ps ++ ((addToGroups rest k p).map Prod.snd).flatten)
          (ps ++ ((rest.map Prod.snd).flatten ++ [p])) :=
        List.Perm.append_left _ ih
      have h3 : ps ++ ((rest.map Prod.snd).flatten ++ [p])
          = (ps ++ (rest.map Prod.snd).flatten) ++ [p] := by
        simp [List.append_assoc]
      rw [← h3]
      exact h2

/-- The members of the per-stage dictionary are a permutation of the scanned
candidate list. -/
theorem group_files_join_perm [DecidableEq κ] (key : FPath → κ)
    (files : List FPath) : List.Perm (groupJoin (group_files key files)) files := by
  induction files using List.reverseRecOn with
  | nil => simp [group_files, groupJoin]
  | append_singleton fl p ih =>
    have heq : group_files key (fl ++ [p]) =
        addToGroups (group_files key fl) (key p) p := by
      simp [group_files, List.foldl_append]
    rw [heq]
    exact (addToGroups_groupJoin_perm _ _ _).trans (ih.append_right [p])

/-- A scan whose key function never raises on the scanned files computes the
total-key dictionary. -/
theorem foldlM_run [DecidableEq κ] (keyfunction : FPath → Option κ)
    (key : FPath → κ) :
    ∀ (files : List FPath) (gs : List (κ × List FPath)),
      (∀ p ∈ files, keyfunction p = some (key p)) →
      files.foldlM (fun gs p => (keyfunction p).map (fun k => addToGroups gs k p)) gs =
        some (files.foldl (fun gs p => addToGroups gs (key p) p) gs)
  | [], gs, _ => by simp
  | p :: ps, gs, h => by
    have hp := h p (List.mem_cons_self p ps)
    simp only [List.foldlM_cons, hp, Option.map_some', List.foldl_cons]
    exact foldlM_run keyfunction key ps _ (fun q hq => h q (List.mem_cons_of_mem _ hq))

/-- `run_stage` with a never-raising key function succeeds and returns the
total-key dictionary. -/
theorem run_stage_eq_some [DecidableEq κ] {keyfunction : FPath → Option κ}
    {key : FPath → κ} {files : List FPath}
    (h : ∀ p ∈ files, keyfunction p = some (key p)) :
    run_stage keyfunction files = some (group_files key files) :=
  foldlM_run keyfunction key files [] h

/-- If a stage scan succeeds, every scanned file's key was computed. -/
theorem foldlM_isSome [DecidableEq κ] {keyfunction : FPath → Option κ} :
    ∀ {files : List FPath} {gs0 gs : List (κ × List FPath)},
      files.foldlM (fun gs p => (keyfunction p).map (fun k => addToGroups gs k p)) gs0 =
        some gs →
      ∀ p ∈ files, (keyfunction p).isSome := by
  intro files
  induction files with
  | nil => intro gs0 gs _ p hp; cases hp
  | cons q qs ih =>
    intro gs0 gs hrun p hp
    rw [List.foldlM_cons] at hrun
    cases hq : keyfunction q with
    | none => rw [hq] at hrun; simp [Option.map_none'] at hrun
    | some k =>
      rw [hq] at hrun
      simp only [Option.map_some'] at hrun
      rcases List.mem_cons.1 hp with hpq | hp2
      · subst hpq; simp [hq]
      · exact ih hrun p hp2

/-- A successful stage scan determines the dictionary: it is the total-key
dictionary of the defaulted key function. -/
theorem run_stage_eq_group [DecidableEq κ] {keyfunction : FPath → Option κ}
    {files : List FPath} {gs : List (κ × List FPath)} (d : κ)
    (h : run_stage keyfunction files = some gs) :
    (∀ p ∈ files, (keyfunction p).isSome) ∧
      gs = group_files (fun p => (keyfunction p).getD d) files := by
  have hsome : ∀ p ∈ files, (keyfunction p).isSome := fun p hp =>
    foldlM_isSome h p hp
  have heq : run_stage keyfunction files =
      some (group_files (fun p => (keyfunction p).getD d) files) :=
    run_stage_eq_some (fun p hp => option_eq_some_getD (hsome p hp) d)
  rw [h] at heq
  exact ⟨hsome, Option.some.inj heq⟩

/-- A raising key (unreadable file) anywhere in the scanned list makes the
whole scan raise. -/
theorem foldlM_none [DecidableEq κ] (keyfunction : FPath → Option κ)
    (f : FPath) (hbad : keyfunction f = none) :
    ∀ (files : List FPath) (gs0 : List (κ × List FPath)), f ∈ files →
      files.foldlM (fun gs p => (keyfunction p).map (fun k => addToGroups gs k p)) gs0 =
        none
  | [], _, hf => absurd hf (List.not_mem_nil f)
  | p :: ps, gs0, hf => by
    by_cases hp : p = f
    · subst hp
      simp [hbad]
    · have hf2 : f ∈ ps := by
        rcases List.mem_cons.1 hf with h | h
        · exact absurd h.symm hp
        · exact h
      cases hk : keyfunction p with
      | none => simp [hk]
      | some k =>
        simp only [List.foldlM_cons, hk, Option.map_some']
        exact foldlM_none keyfunction f hbad ps _ hf2

/-- `run_stage` version of `foldlM_none`. -/
theorem run_stage_none [DecidableEq κ] {keyfunction : FPath → Option κ}
    {f : FPath} {files : List FPath} (hf : f ∈ files)
    (hbad : keyfunction f = none) : run_stage keyfunction files = none :=
  foldlM_none keyfunction f hbad files [] hf

/-! ### The stable descending sort -/

/-- `insertGroup` is a permutation-preserving insertion. -/
theorem insertGroup_perm (g : List FPath) (l : List (List FPath)) :
    List.Perm (insertGroup g l) (g :: l) := by
  induction l with
  | nil => exact List.Perm.refl _
  | cons h t ih =>
    by_cases hlt : g.length < h.length
    · rw [show insertGroup g (h :: t) = h :: insertGroup g t
        from by simp [insertGroup, hlt]]
      exact (ih.cons h).trans (List.Perm.swap g h t)
    · rw [show insertGroup g (h :: t) = g :: h :: t
        from by simp [insertGroup, hlt]]

/-- `sortGroups` permutes its input. -/
theorem sortGroups_perm (l : List (List FPath)) :
    List.Perm (sortGroups l) l := by
  induction l with
  | nil => exact List.Perm.refl _
  | cons g gs ih =>
    rw [show sortGroups (g :: gs) = insertGroup g (sortGroups gs) from rfl]
    exact (insertGroup_perm g (sortGroups gs)).trans (ih.cons g)

/-- Membership in an insertion. -/
theorem mem_insertGroup {x g : List FPath} {l : List (List FPath)} :
    x ∈ insertGroup g l ↔ x = g ∨ x ∈ l := by
  rw [(insertGroup_perm g l).mem_iff]
  simp

/-- `insertGroup` preserves sortedness by decreasing length. -/
theorem descLen_insertGroup {l : List (List FPath)} (hs : DescLen l)
    (g : List FPath) : DescLen (insertGroup g l) := by
  induction l with
  | nil =>
    simp only [insertGroup, DescLen]
    exact List.pairwise_singleton _ _
  | cons h t ih =>
    have hh := List.pairwise_cons.1 hs
    by_cases hlt : g.length < h.length
    · rw [show insertGroup g (h :: t) = h :: insertGroup g t
        from by simp [insertGroup, hlt]]
      refine List.pairwise_cons.2 ⟨?_, ih hh.2⟩
      intro y hy
      rcases mem_insertGroup.1 hy with hy | hy
      · subst hy; omega
      · exact hh.1 y hy
    · rw [show insertGroup g (h :: t) = g :: h :: t
        from by simp [insertGroup, hlt]]
      refine List.pairwise_cons.2 ⟨?_, hs⟩
      intro y hy
      rcases List.mem_cons.1 hy with hy | hy
      · subst hy; omega
      · have := hh.1 y hy
        omega

/-- The sorted group list is sorted by decreasing length. -/
theorem sortGroups_descLen (l : List (List FPath)) : DescLen (sortGroups l) := by
  induction l with
  | nil => exact List.Pairwise.nil
  | cons g gs ih =>
    rw [show sortGroups (g :: gs) = insertGroup g (sortGroups gs) from rfl]
    exact descLen_insertGroup ih g

/-! ### Slicing and the surviving groups -/

/-- Any Python slice `lst[:n]` is an initial segment of the list. -/
theorem pySlice_isPre (l : List α) (tc : Option Int) : pySlice l tc <+: l := by
  cases tc with
  | none => exact List.prefix_refl l
  | some n =>
    by_cases hn : n < 0
    · rw [show pySlice l (some n) = l.take (l.length - n.natAbs)
        from by simp [pySlice, hn]]
      exact take_isPre _ l
    · rw [show pySlice l (some n) = l.take n.toNat from by simp [pySlice, hn]]
      exact take_isPre _ l

/-- Every surviving group has at least two members. -/
theorem kept_groups_two_le {vals : List (List FPath)} {tc : Option Int}
    {g : List FPath} (hg : g ∈ kept_groups vals tc) : 2 ≤ g.length := by
  have := (List.mem_filter.1 hg).2
  simp only [decide_eq_true_eq] at this
  omega

/-- Surviving groups are groups of the stage dictionary. -/
theorem kept_groups_subset {vals : List (List FPath)} {tc : Option Int}
    {g : List FPath} (hg : g ∈ kept_groups vals tc) : g ∈ vals := by
  have h1 := (List.mem_filter.1 hg).1
  have h2 := (pySlice_isPre (sortGroups vals) tc).sublist.mem h1
  exact (sortGroups_perm vals).mem_iff.1 h2

/-- The surviving groups form a sublist of the sorted group list. -/
theorem kept_groups_sublist (vals : List (List FPath)) (tc : Option Int) :
    List.Sublist (kept_groups vals tc) (sortGroups vals) :=
  (List.filter_sublist _).trans (pySlice_isPre (sortGroups vals) tc).sublist

/-- Files handed to the next stage come from a surviving group. -/
theorem mem_next_files {gs : List (κ × List FPath)} {tc : Option Int}
    {q : FPath} (hq : q ∈ next_files gs tc) :
    ∃ g, g ∈ kept_groups (gs.map Prod.snd) tc ∧ q ∈ g :=
  List.mem_flatten.1 hq

/-- Candidate monotonicity at the group level: every next-stage file belongs
to some group value of the stage dictionary. -/
theorem mem_vals_of_mem_next_files {gs : List (κ × List FPath)}
    {tc : Option Int} {q : FPath} (hq : q ∈ next_files gs tc) :
    ∃ g, g ∈ gs.map Prod.snd ∧ q ∈ g := by
  obtain ⟨g, hg, hqg⟩ := mem_next_files hq
  exact ⟨g, kept_groups_subset hg, hqg⟩

/-- Every next-stage candidate was a candidate of the current stage. -/
theorem next_files_subset [DecidableEq κ] {key : FPath → κ} {fl : List FPath}
    {tc : Option Int} {q : FPath}
    (hq : q ∈ next_files (group_files key fl) tc) : q ∈ fl := by
  obtain ⟨g, hg, hqg⟩ := mem_vals_of_mem_next_files hq
  obtain ⟨⟨k, ps⟩, he, hsnd⟩ := List.mem_map.1 hg
  simp only at hsnd
  subst hsnd
  have := group_files_entry he
  subst this
  exact (List.mem_filter.1 hqg).1

/-- Flattening respects permutation of the outer list. -/
theorem perm_flatten_of_perm {l1 l2 : List (List α)} (h : List.Perm l1 l2) :
    List.Perm l1.flatten l2.flatten := by
  induction h with
  | nil => exact List.Perm.refl _
  | cons x _ ih =>
    simp only [List.flatten_cons]
    exact List.Perm.append_left x ih
  | swap x y l =>
    simp only [List.flatten_cons]
    exact List.perm_append_comm_assoc y x l.flatten
  | trans _ _ ih1 ih2 => exact ih1.trans ih2

/-- The next-stage candidate list is no longer than the current one. -/
theorem next_files_length_le [DecidableEq κ] (key : FPath → κ)
    (fl : List FPath) (tc : Option Int) :
    (next_files (group_files key fl) tc).length ≤ fl.length := by
  have h1 : List.Sublist (next_files (group_files key fl) tc)
      ((sortGroups ((group_files key fl).map Prod.snd)).flatten) :=
    sublist_flatten_of_sublist (kept_groups_sublist _ tc)
  have h2 : List.Perm ((sortGroups ((group_files key fl).map Prod.snd)).flatten)
      fl :=
    (perm_flatten_of_perm (sortGroups_perm _)).trans (group_files_join_perm key fl)
  calc (next_files (group_files key fl) tc).length
      ≤ ((sortGroups ((group_files key fl).map Prod.snd)).flatten).length :=
        h1.length_le
    _ = fl.length := h2.length_eq

/-! ### Survival of multi-member groups -/

/-- Without truncation every multi-member group survives the stage. -/
theorem mem_kept_groups_none {vals : List (List FPath)} {g : List FPath}
    (hg : g ∈ vals) (h2 : 2 ≤ g.length) : g ∈ kept_groups vals none := by
  have hs : g ∈ sortGroups vals := (sortGroups_perm vals).mem_iff.2 hg
  unfold kept_groups
  rw [show pySlice (sortGroups vals) none = sortGroups vals from rfl]
  refine List.mem_filter.2 ⟨hs, ?_⟩
  simp only [decide_eq_true_eq]
  omega

/-- With no truncation, both members of a same-key pair of candidates
survive to the next stage. -/
theorem pair_survives [DecidableEq κ] {key : FPath → κ} {fl : List FPath}
    {a b : FPath} (ha : a ∈ fl) (hb : b ∈ fl) (hab : a ≠ b)
    (hk : key b = key a) :
    a ∈ next_files (group_files key fl) none ∧
      b ∈ next_files (group_files key fl) none := by
  set G := fl.filter (fun q => decide (key q = key a)) with hG
  have hmem : (key a, G) ∈ group_files key fl := mem_group_files_self ha
  have haG : a ∈ G := List.mem_filter.2 ⟨ha, by simp⟩
  have hbG : b ∈ G := List.mem_filter.2 ⟨hb, by simp [hk]⟩
  have hGv : G ∈ (group_files key fl).map Prod.snd :=
    List.mem_map.2 ⟨(key a, G), hmem, rfl⟩
  have hlen : 2 ≤ G.length := two_le_length_of_mem_ne haG hbG hab
  have hkept := mem_kept_groups_none hGv hlen
  exact ⟨List.mem_flatten.2 ⟨G, hkept, haG⟩, List.mem_flatten.2 ⟨G, hkept, hbG⟩⟩

/-- Auxiliary: exactly one entry of a distinct-key dictionary whose entries
respect the key function contains a given file. -/
theorem countP_mem_eq_one [DecidableEq κ] {key : FPath → κ} {a : FPath} :
    ∀ (gs : List (κ × List FPath)),
      (gs.map Prod.fst).Nodup →
      (∀ k ps, (k, ps) ∈ gs → ∀ q ∈ ps, key q = k) →
      (∃ ps, (key a, ps) ∈ gs ∧ a ∈ ps) →
      gs.countP (fun e => decide (a ∈ e.2)) = 1
  | [], _, _, hex => by
    obtain ⟨ps, hps, _⟩ := hex
    cases hps
  | (k2, ps2) :: rest, hnd, hkey, hex => by
    have hnd2 : (k2 :: rest.map Prod.fst).Nodup := by simpa using hnd
    by_cases hae : a ∈ ps2
    · have hk2 : key a = k2 := hkey k2 ps2 (List.mem_cons_self _ _) a hae
      have hz : rest.countP (fun e => decide (a ∈ e.2)) = 0 := by
        refine List.countP_eq_zero.2 ?_
        rintro ⟨k3, ps3⟩ he2
        simp only [decide_eq_true_eq]
        intro hae2
        have hk3 : key a = k3 := hkey k3 ps3 (List.mem_cons_of_mem _ he2) a hae2
        have hmm : k2 ∈ rest.map Prod.fst :=
          List.mem_map.2 ⟨(k3, ps3), he2, by dsimp only; rw [← hk3, hk2]⟩
        exact (List.nodup_cons.1 hnd2).1 hmm
      rw [List.countP_cons, hz]
      simp [hae]
    · have hex2 : ∃ ps, (key a, ps) ∈ rest ∧ a ∈ ps := by
        obtain ⟨ps, hps, haps⟩ := hex
        rcases List.mem_cons.1 hps with heq | hm
        · have hps2 : ps = ps2 := congrArg Prod.snd heq
          rw [hps2] at haps
          exact absurd haps hae
        · exact ⟨ps, hm, haps⟩
      have hrest := countP_mem_eq_one rest (List.nodup_cons.1 hnd2).2
        (fun k ps h => hkey k ps (List.mem_cons_of_mem _ h)) hex2
      rw [List.countP_cons, hrest]
      simp [hae]

/-- Exactly one dictionary entry contains a given scanned file. -/
theorem countP_entries_mem [DecidableEq κ] (key : FPath → κ) {fl : List FPath}
    {a : FPath} (ha : a ∈ fl) :
    (group_files key fl).countP (fun e => decide (a ∈ e.2)) = 1 := by
  apply countP_mem_eq_one
  · exact group_files_keys_nodup key fl
  · intro k ps hps q hq
    have hchar := group_files_entry hps
    subst hchar
    have := (List.mem_filter.1 hq).2
    simpa using this
  · exact ⟨_, mem_group_files_self ha, List.mem_filter.2 ⟨ha, by simp⟩⟩

/-- A group value containing `a` is the group of `a`'s key. -/
theorem val_contains_eq [DecidableEq κ] {key : FPath → κ} {fl : List FPath}
    {a : FPath} {g : List FPath}
    (hg : g ∈ (group_files key fl).map Prod.snd) (hag : a ∈ g) :
    g = fl.filter (fun q => decide (key q = key a)) := by
  obtain ⟨⟨k, ps⟩, he, hsnd⟩ := List.mem_map.1 hg
  simp only at hsnd
  subst hsnd
  have hchar := group_files_entry he
  subst hchar
  have hka := (List.mem_filter.1 hag).2
  simp only [decide_eq_true_eq] at hka
  subst hka
  rfl

/-- Counting a path in a flattening where every group containing it is the
fixed group `G`. -/
theorem count_flatten_unique {p : FPath} {G : List FPath} :
    ∀ (l : List (List FPath)), (∀ g ∈ l, p ∈ g → g = G) →
      l.flatten.count p = l.countP (fun g => decide (p ∈ g)) * G.count p
  | [], _ => by simp
  | g :: t, h => by
    have ht := count_flatten_unique t (fun g2 hg2 => h g2 (List.mem_cons_of_mem _ hg2))
    by_cases hpg : p ∈ g
    · have hgG : g = G := h g (List.mem_cons_self _ _) hpg
      subst hgG
      rw [List.flatten_cons, List.count_append, ht, List.countP_cons,
        decide_eq_true hpg]
      simp only [if_true]
      ring
    · have hc : g.count p = 0 := List.count_eq_zero.2 hpg
      rw [List.flatten_cons, List.count_append, ht, List.countP_cons,
        decide_eq_false hpg, hc]
      simp

/-- With no truncation a path with at least two occurrences keeps all its
occurrences in the next candidate list. -/
theorem count_next_files_none [DecidableEq κ] (key : FPath → κ)
    (fl : List FPath) (p : FPath) (h2 : 2 ≤ fl.count p) :
    (next_files (group_files key fl) none).count p = fl.count p := by
  set G := fl.filter (fun q => decide (key q = key p)) with hG
  have hGcount : G.count p = fl.count p := by
    rw [hG]
    exact List.count_filter (by simp)
  have h2G : 2 ≤ G.count p := by rw [hGcount]; exact h2
  have hGlen : 2 ≤ G.length := le_trans h2G (List.count_le_length p G)
  have hp : p ∈ fl := by
    by_contra hnp
    rw [List.count_eq_zero.2 hnp] at h2
    omega
  have hmem : (key p, G) ∈ group_files key fl := mem_group_files_self hp
  have huniq : ∀ g ∈ (group_files key fl).map Prod.snd, p ∈ g → g = G :=
    fun g hg hpg => val_contains_eq hg hpg
  have hcount1 : ((group_files key fl).map Prod.snd).countP
      (fun g => decide (p ∈ g)) = 1 := by
    rw [List.countP_map]
    have := countP_entries_mem key hp
    simpa [Function.comp] using this
  have hsorted_uniq : ∀ g ∈ sortGroups ((group_files key fl).map Prod.snd),
      p ∈ g → g = G :=
    fun g hg hpg => huniq g ((sortGroups_perm _).mem_iff.1 hg) hpg
  have hkept_uniq : ∀ g ∈ kept_groups ((group_files key fl).map Prod.snd) none,
      p ∈ g → g = G :=
    fun g hg hpg => huniq g (kept_groups_subset hg) hpg
  have hcountk : (kept_groups ((group_files key fl).map Prod.snd) none).countP
      (fun g => decide (p ∈ g)) = 1 := by
    unfold kept_groups
    rw [show pySlice (sortGroups ((group_files key fl).map Prod.snd)) none
      = sortGroups ((group_files key fl).map Prod.snd) from rfl]
    rw [List.countP_filter]
    have hcongr : ∀ g ∈ sortGroups ((group_files key fl).map Prod.snd),
        ((decide (p ∈ g) && decide (1 < g.length)) = true) ↔
          (decide (p ∈ g) = true) := by
      intro g hg
      by_cases hpg : p ∈ g
      · have hgG := hsorted_uniq g hg hpg
        subst hgG
        have hl : 1 < G.length := by omega
        simp [hpg, hl]
      · simp [hpg]
    rw [List.countP_congr hcongr, List.Perm.countP_eq _ (sortGroups_perm _)]
    exact hcount1
  rw [show next_files (group_files key fl) none
    = (kept_groups ((group_files key fl).map Prod.snd) none).flatten from rfl]
  rw [count_flatten_unique _ hkept_uniq, hcountk, one_mul, hGcount]

/-! ### The key functions on readable files -/

/-- Folding append over a chunk list concatenates the chunks. -/
theorem foldl_append_eq_flatten (l : List (List Nat)) :
    ∀ acc : List Nat, l.foldl (fun acc chunk => acc ++ chunk) acc = acc ++ l.flatten := by
  induction l with
  | nil => intro acc; simp
  | cons c t ih =>
    intro acc
    rw [List.foldl_cons, ih, List.flatten_cons, List.append_assoc]

/-- With enough fuel the chunks concatenate back to the content. -/
theorem readChunksAux_flatten :
    ∀ (fuel : Nat) (c : List Nat), c.length ≤ fuel →
      (readChunksAux fuel c).flatten = c
  | 0, c, h => by
    have : c = [] := List.eq_nil_of_length_eq_zero (Nat.le_zero.1 h)
    subst this
    rfl
  | fuel + 1, c, h => by
    by_cases hc : c.isEmpty
    · rw [show readChunksAux (fuel + 1) c = [] from by simp [readChunksAux, hc]]
      rw [List.isEmpty_iff.1 hc]
      rfl
    · rw [show readChunksAux (fuel + 1) c
        = c.take 8192 :: readChunksAux fuel (c.drop 8192)
        from by simp [readChunksAux, hc]]
      have hne : c ≠ [] := fun hnil => by simp [hnil] at hc
      have hlen : (c.drop 8192).length ≤ fuel := by
        have h1 : (c.drop 8192).length = c.length - 8192 := List.length_drop _ _
        have h2 : 0 < c.length := List.length_pos.2 hne
        omega
      rw [List.flatten_cons, readChunksAux_flatten fuel (c.drop 8192) hlen]
      exact List.take_append_drop 8192 c

/-- The chunked read reassembles the whole content. -/
theorem readChunks_flatten (c : List Nat) : (readChunks c).flatten = c :=
  readChunksAux_flatten c.length c (Nat.le_refl _)

/-- On a readable file `getsize` returns the content length. -/
theorem getsize_eq {fs : FS} {p : FPath} (h : (fs p).isSome) :
    getsize fs p = some (key_size fs p) := by
  unfold getsize key_size content
  cases hfs : fs p with
  | none => rw [hfs] at h; cases h
  | some c => rfl

/-- On a readable file `get_crc_key` returns the Adler-32 of the first
1024 bytes. -/
theorem get_crc_key_eq {fs : FS} {p : FPath} (h : (fs p).isSome) :
    get_crc_key fs p = some (key_crc fs p) := by
  unfold get_crc_key key_crc content
  cases hfs : fs p with
  | none => rw [hfs] at h; cases h
  | some c => rfl

/-- On a readable file `get_hash_key` digests the entire content. -/
theorem get_hash_key_eq (sha : List Nat → List Nat) {fs : FS} {p : FPath}
    (h : (fs p).isSome) :
    get_hash_key sha fs p = some (key_hash sha fs p) := by
  unfold get_hash_key key_hash content
  cases hfs : fs p with
  | none => rw [hfs] at h; cases h
  | some c =>
    simp only [Option.map_some', Option.getD_some, Option.some.injEq]
    rw [foldl_append_eq_flatten, readChunks_flatten]
    rfl

/-! ### Adler-32 range -/

/-- The Adler-32 fold state stays below the modulus. -/
theorem adler_fold_lt (data : List Nat) :
    ∀ ab : Nat × Nat, ab.1 < 65521 → ab.2 < 65521 →
      (data.foldl adlerStep ab).1 < 65521 ∧ (data.foldl adlerStep ab).2 < 65521 := by
  induction data with
  | nil => intro ab h1 h2; exact ⟨h1, h2⟩
  | cons x t ih =>
    intro ab h1 h2
    rw [List.foldl_cons]
    exact ih _ (Nat.mod_lt _ (by omega)) (Nat.mod_lt _ (by omega))

/-- `zlib.adler32` always fits in 32 bits. -/
theorem adler32_lt (data : List Nat) : adler32 data < 2 ^ 32 := by
  have h := adler_fold_lt data (1, 0) (by omega) (by omega)
  have h1 := h.1
  have h2 := h.2
  have hpow : (2 : Nat) ^ 32 = 4294967296 := by norm_num
  show (data.foldl adlerStep (1, 0)).2 * 65536 + (data.foldl adlerStep (1, 0)).1 < 2 ^ 32
  omega

/-! ### The pipeline on readable inputs -/

/-- Size stage on a readable candidate list. -/
theorem sizeStage_eq {fs : FS} {files : List FPath}
    (h : ∀ p ∈ files, (fs p).isSome) :
    sizeStage fs files = some (group_files (key_size fs) files) :=
  run_stage_eq_some (fun p hp => getsize_eq (h p hp))

/-- CRC stage on a readable candidate list. -/
theorem crcStage_eq {fs : FS} {files : List FPath}
    (h : ∀ p ∈ files, (fs p).isSome) :
    crcStage fs files = some (group_files (key_crc fs) files) :=
  run_stage_eq_some (fun p hp => get_crc_key_eq (h p hp))

/-- Hash stage on a readable candidate list. -/
theorem hashStage_eq (sha : List Nat → List Nat) {fs : FS} {files : List FPath}
    (h : ∀ p ∈ files, (fs p).isSome) :
    hashStage sha fs files = some (group_files (key_hash sha fs) files) :=
  run_stage_eq_some (fun p hp => get_hash_key_eq sha (h p hp))

/-- On an all-readable candidate list the pipeline completes and returns the
multi-member groups of the hash dictionary of the surviving candidates. -/
theorem pipeline_runs (fs : FS) (sha : List Nat → List Nat)
    (files : List FPath) (top : Option Int)
    (hread : ∀ p ∈ files, (fs p).isSome) :
    filter_duplicate_files fs sha files top =
      some (((group_files (key_hash sha fs)
          (next_files (group_files (key_crc fs)
              (next_files (group_files (key_size fs) files) (size_budget top)))
            (crc_budget top))).map Prod.snd).filter
        (fun l => decide (1 < l.length))) := by
  have hread2 : ∀ p ∈ next_files (group_files (key_size fs) files)
      (size_budget top), (fs p).isSome :=
    fun p hp => hread p (next_files_subset hp)
  have hread3 : ∀ p ∈ next_files (group_files (key_crc fs)
      (next_files (group_files (key_size fs) files) (size_budget top)))
      (crc_budget top), (fs p).isSome :=
    fun p hp => hread2 p (next_files_subset hp)
  simp only [filter_duplicate_files, sizeStage_eq hread, Option.some_bind]
  simp only [crcStage_eq hread2, Option.some_bind]
  simp only [hashStage_eq sha hread3, Option.map_some']

/-- A candidate that cannot be read aborts the whole pipeline (the size
stage's `os.path.getsize` raises and nothing catches the exception). -/
theorem pipeline_aborts (fs : FS) (sha : List Nat → List Nat)
    {files : List FPath} {f : FPath} (top : Option Int) (hf : f ∈ files)
    (hbad : fs f = none) :
    filter_duplicate_files fs sha files top = none := by
  have h1 : sizeStage fs files = none :=
    run_stage_none hf (by simp [getsize, hbad])
  unfold filter_duplicate_files
  rw [h1]
  rfl

/-- The pipeline succeeds exactly when the three stage scans succeed in
sequence, and then returns the multi-member groups of the hash stage. -/
theorem filter_duplicate_files_eq_some {fs : FS} {sha : List Nat → List Nat}
    {files : List FPath} {top : Option Int} {r : List (List FPath)} :
    filter_duplicate_files fs sha files top = some r ↔
      ∃ g1 g2 g3, sizeStage fs files = some g1 ∧
        crcStage fs (next_files g1 (size_budget top)) = some g2 ∧
        hashStage sha fs (next_files g2 (crc_budget top)) = some g3 ∧
        r = (g3.map Prod.snd).filter (fun l => decide (1 < l.length)) := by
  constructor
  · intro h
    unfold filter_duplicate_files at h
    rcases Option.bind_eq_some.1 h with ⟨g1, h1, h⟩
    rcases Option.bind_eq_some.1 h with ⟨g2, h2, h⟩
    rcases Option.map_eq_some'.1 h with ⟨g3, h3, hr⟩
    exact ⟨g1, g2, g3, h1, h2, h3, hr.symm⟩
  · rintro ⟨g1, g2, g3, h1, h2, h3, hr⟩
    unfold filter_duplicate_files
    rw [h1, Option.some_bind, h2, Option.some_bind, h3, Option.map_some', hr]

/-! ### Refinement: slice-then-filter versus filter-then-slice -/

/-- On a descending-sorted group list, slicing and then dropping singleton
groups is the same as dropping first and then slicing. -/
theorem take_filter_of_descLen :
    ∀ (l : List (List FPath)), DescLen l → ∀ n : Nat,
      (l.take n).filter (fun g => decide (1 < g.length)) =
        (l.filter (fun g => decide (1 < g.length))).take n
  | [], _, n => by simp
  | g :: gs, _, 0 => by simp
  | g :: gs, hl, n + 1 => by
    have hl2 : List.Pairwise (fun a b => b.length ≤ a.length) (g :: gs) := hl
    have hh := List.pairwise_cons.1 hl2
    rw [List.take_succ_cons]
    by_cases hg : 1 < g.length
    · rw [List.filter_cons_of_pos (by simp [hg]),
        List.filter_cons_of_pos (by simp [hg]), List.take_succ_cons,
        take_filter_of_descLen gs hh.2 n]
    · rw [List.filter_cons_of_neg (by simp [hg]),
        List.filter_cons_of_neg (by simp [hg])]
      have hz : ∀ x ∈ gs, ¬(1 < x.length) := by
        intro x hx
        have := hh.1 x hx
        omega
      have hz1 : (gs.take n).filter (fun g => decide (1 < g.length)) = [] :=
        List.filter_eq_nil_iff.2
          (fun x hx => by simpa using hz x (List.mem_of_mem_take hx))
      have hz2 : gs.filter (fun g => decide (1 < g.length)) = [] :=
        List.filter_eq_nil_iff.2 (fun x hx => by simpa using hz x hx)
      rw [hz1, hz2]
      simp

/-- Filtering away singleton groups ignores the insertion of a singleton. -/
theorem filter_insertGroup_neg {g : List FPath} (hg : ¬1 < g.length) :
    ∀ l : List (List FPath),
      (insertGroup g l).filter (fun x => decide (1 < x.length)) =
        l.filter (fun x => decide (1 < x.length))
  | [] => by simp [insertGroup, hg]
  | h :: t => by
    by_cases hlt : g.length < h.length
    · rw [show insertGroup g (h :: t) = h :: insertGroup g t
        from by simp [insertGroup, hlt]]
      by_cases hh : 1 < h.length
      · rw [List.filter_cons_of_pos (by simp [hh]),
          List.filter_cons_of_pos (by simp [hh]),
          filter_insertGroup_neg hg t]
      · rw [List.filter_cons_of_neg (by simp [hh]),
          List.filter_cons_of_neg (by simp [hh]),
          filter_insertGroup_neg hg t]
    · rw [show insertGroup g (h :: t) = g :: h :: t
        from by simp [insertGroup, hlt]]
      rw [List.filter_cons_of_neg (by simp [hg])]

/-- Inserting a group at least as long as every element puts it in front. -/
theorem insertGroup_of_le {g : List FPath} :
    ∀ {l : List (List FPath)}, (∀ x ∈ l, x.length ≤ g.length) →
      insertGroup g l = g :: l
  | [], _ => rfl
  | h :: t, hle => by
    have hno : ¬(g.length < h.length) := by
      have := hle h (List.mem_cons_self _ _)
      omega
    simp [insertGroup, hno]

/-- Filtering away singleton groups commutes with inserting a multi-member
group into a descending-sorted list. -/
theorem filter_insertGroup_pos {g : List FPath} (hg : 1 < g.length) :
    ∀ (l : List (List FPath)), DescLen l →
      (insertGroup g l).filter (fun x => decide (1 < x.length)) =
        insertGroup g (l.filter (fun x => decide (1 < x.length)))
  | [], _ => by simp [insertGroup, hg]
  | h :: t, hl => by
    have hl2 : List.Pairwise (fun a b => b.length ≤ a.length) (h :: t) := hl
    have hh := List.pairwise_cons.1 hl2
    by_cases hlt : g.length < h.length
    · rw [show insertGroup g (h :: t) = h :: insertGroup g t
        from by simp [insertGroup, hlt]]
      by_cases hhl : 1 < h.length
      · rw [List.filter_cons_of_pos (by simp [hhl]),
          List.filter_cons_of_pos (by simp [hhl]),
          filter_insertGroup_pos hg t hh.2,
          show insertGroup g (h :: t.filter (fun x => decide (1 < x.length)))
            = h :: insertGroup g (t.filter (fun x => decide (1 < x.length)))
          from by simp [insertGroup, hlt]]
      · exfalso
        omega
    · rw [show insertGroup g (h :: t) = g :: h :: t
        from by simp [insertGroup, hlt]]
      rw [List.filter_cons_of_pos (by simp [hg])]
      have hle : ∀ x ∈ (h :: t).filter (fun x => decide (1 < x.length)),
          x.length ≤ g.length := by
        intro x hx
        have hxm := (List.mem_filter.1 hx).1
        rcases List.mem_cons.1 hxm with hxh | hxt
        · subst hxh; omega
        · have := hh.1 x hxt
          omega
      rw [insertGroup_of_le hle]

/-- Dropping singleton groups commutes with the stable descending sort. -/
theorem filter_sortGroups (vals : List (List FPath)) :
    (sortGroups vals).filter (fun x => decide (1 < x.length)) =
      sortGroups (vals.filter (fun x => decide (1 < x.length))) := by
  induction vals with
  | nil => rfl
  | cons g gs ih =>
    rw [show sortGroups (g :: gs) = insertGroup g (sortGroups gs) from rfl]
    by_cases hg : 1 < g.length
    · rw [filter_insertGroup_pos hg (sortGroups gs) (sortGroups_descLen gs), ih,
        List.filter_cons_of_pos (by simp [hg])]
      rfl
    · rw [filter_insertGroup_neg hg (sortGroups gs), ih,
        List.filter_cons_of_neg (by simp [hg])]

/-- The code's slice-then-filter surviving groups coincide with the spec's
filter-then-sort-then-take groups, for every natural budget. -/
theorem kept_groups_eq_spec (vals : List (List FPath)) (n : Nat) :
    kept_groups vals (some (n : Int)) = spec_kept_groups vals n := by
  unfold kept_groups spec_kept_groups
  have hn : ¬((n : Int) < 0) := by omega
  have hslice : pySlice (sortGroups vals) (some (n : Int)) =
      (sortGroups vals).take n := by
    simp [pySlice, hn]
  rw [hslice, take_filter_of_descLen (sortGroups vals) (sortGroups_descLen vals) n,
    filter_sortGroups]

/-! ### Remaining helpers for the claims -/

/-- A nonnegative budget keeps at most that many groups. -/
theorem kept_groups_length_le (vals : List (List FPath)) {n : Int} (hn : 0 ≤ n) :
    (kept_groups vals (some n)).length ≤ n.toNat := by
  unfold kept_groups
  have hslice : pySlice (sortGroups vals) (some n) =
      (sortGroups vals).take n.toNat := by
    simp [pySlice, Int.not_lt.2 hn]
  rw [hslice]
  exact le_trans (List.length_filter_le _ _) (List.length_take_le _ _)

/-- Any budget keeps a leading segment of the untruncated surviving
groups — i.e. the largest ones. -/
theorem kept_groups_isPre (vals : List (List FPath)) (tc : Option Int) :
    kept_groups vals tc <+: kept_groups vals none := by
  unfold kept_groups
  rw [show pySlice (sortGroups vals) none = sortGroups vals from rfl]
  exact (pySlice_isPre (sortGroups vals) tc).filter _

/-- A mapped option is populated only if the option is. -/
theorem isSome_of_map {o : Option (List Nat)} {β : Type} {f : List Nat → β}
    (h : (o.map f).isSome) : o.isSome := by
  cases o with
  | none => cases h
  | some c => rfl

/-- A pair of final-stage candidates with equal keys lies in exactly one
returned Duplicate Set. -/
theorem countP_result_pair [DecidableEq κ] (key : FPath → κ)
    (fl : List FPath) {a b : FPath} (ha : a ∈ fl) (hb : b ∈ fl) (hab : a ≠ b)
    (hk : key b = key a) :
    (((group_files key fl).map Prod.snd).filter
        (fun l => decide (1 < l.length))).countP
      (fun g => decide (a ∈ g ∧ b ∈ g)) = 1 := by
  have hvals : ((group_files key fl).map Prod.snd).countP
      (fun g => decide (a ∈ g)) = 1 := by
    rw [List.countP_map]
    simpa [Function.comp] using countP_entries_mem key ha
  have hcongr : ∀ g ∈ (group_files key fl).map Prod.snd,
      ((decide (a ∈ g ∧ b ∈ g) && decide (1 < g.length)) = true) ↔
        (decide (a ∈ g) = true) := by
    intro g hg
    by_cases hag : a ∈ g
    · have hgG := val_contains_eq hg hag
      have hbg : b ∈ g := by
        rw [hgG]
        exact List.mem_filter.2 ⟨hb, by simp [hk]⟩
      have hlen : 1 < g.length := by
        have := two_le_length_of_mem_ne hag hbg hab
        omega
      simp [hag, hbg, hlen]
    · simp [hag]
  rw [List.countP_filter, List.countP_congr hcongr, hvals]

/-- A final-stage candidate occurring at least twice lies in exactly one
returned Duplicate Set. -/
theorem countP_result_mem [DecidableEq κ] (key : FPath → κ) (fl : List FPath)
    {p : FPath} (hp : p ∈ fl) (h2 : 2 ≤ fl.count p) :
    (((group_files key fl).map Prod.snd).filter
        (fun l => decide (1 < l.length))).countP
      (fun g => decide (p ∈ g)) = 1 := by
  have hvals : ((group_files key fl).map Prod.snd).countP
      (fun g => decide (p ∈ g)) = 1 := by
    rw [List.countP_map]
    simpa [Function.comp] using countP_entries_mem key hp
  have hGlen : 2 ≤ (fl.filter (fun q => decide (key q = key p))).length := by
    have hc : (fl.filter (fun q => decide (key q = key p))).count p = fl.count p :=
      List.count_filter (by simp)
    have := List.count_le_length p (fl.filter (fun q => decide (key q = key p)))
    omega
  have hcongr : ∀ g ∈ (group_files key fl).map Prod.snd,
      ((decide (p ∈ g) && decide (1 < g.length)) = true) ↔
        (decide (p ∈ g) = true) := by
    intro g hg
    by_cases hpg : p ∈ g
    · have hgG := val_contains_eq hg hpg
      have hlen : 1 < g.length := by
        rw [hgG]
        omega
      simp [hpg, hlen]
    · simp [hpg]
  rw [List.countP_filter, List.countP_congr hcongr, hvals]

/-! ### The claims -/

/-- Claim C1: for every readable input run with `top = None`, every pair of
distinct input files with byte-identical content appears together in exactly
one Duplicate Set of the returned collection. -/
theorem C1_identical_pair_unique_set (fs : FS) (sha : List Nat → List Nat)
    (files : List FPath) (hread : ∀ p ∈ files, (fs p).isSome)
    (a b : FPath) (ha : a ∈ files) (hb : b ∈ files) (hab : a ≠ b)
    (hcontent : fs a = fs b) :
    ∃ r, filter_duplicate_files fs sha files none = some r ∧
      r.countP (fun g => decide (a ∈ g ∧ b ∈ g)) = 1 := by
  have hc : content fs a = content fs b := by unfold content; rw [hcontent]
  have hsize : key_size fs b = key_size fs a := by unfold key_size; rw [hc]
  have hcrc : key_crc fs b = key_crc fs a := by unfold key_crc; rw [hc]
  have hhash : key_hash sha fs b = key_hash sha fs a := by
    unfold key_hash; rw [hc]
  have hs1 := pair_survives ha hb hab hsize
  have ha2 : a ∈ next_files (group_files (key_size fs) files)
      (size_budget none) := hs1.1
  have hb2 : b ∈ next_files (group_files (key_size fs) files)
      (size_budget none) := hs1.2
  have hs2 := pair_survives ha2 hb2 hab hcrc
  have ha3 : a ∈ next_files (group_files (key_crc fs)
      (next_files (group_files (key_size fs) files) (size_budget none)))
      (crc_budget none) := hs2.1
  have hb3 : b ∈ next_files (group_files (key_crc fs)
      (next_files (group_files (key_size fs) files) (size_budget none)))
      (crc_budget none) := hs2.2
  exact ⟨_, pipeline_runs fs sha files none hread,
    countP_result_pair (key_hash sha fs) _ ha3 hb3 hab hhash⟩

/-- Claim C2: for every input and every `top`, under a collision-free
digest, every returned Duplicate Set contains only files whose full contents
are byte-for-byte identical (no false positives). -/
theorem C2_no_false_positives (fs : FS) (sha : List Nat → List Nat)
    (files : List FPath) (top : Option Int) (r : List (List FPath))
    (hsha : Function.Injective sha)
    (hrun : filter_duplicate_files fs sha files top = some r)
    (g : List FPath) (hg : g ∈ r) (a b : FPath) (ha : a ∈ g) (hb : b ∈ g) :
    fs a = fs b := by
  rcases filter_duplicate_files_eq_some.1 hrun with ⟨g1, g2, g3, h1, h2, h3, hr⟩
  subst hr
  have hgm := (List.mem_filter.1 hg).1
  have hread3 : ∀ p ∈ next_files g2 (crc_budget top), (fs p).isSome := by
    intro p hp
    exact isSome_of_map (foldlM_isSome h3 p hp)
  have hg3 : g3 = group_files (key_hash sha fs)
      (next_files g2 (crc_budget top)) := by
    have heq := hashStage_eq sha hread3
    rw [h3] at heq
    exact Option.some.inj heq
  subst hg3
  obtain ⟨⟨k, ps⟩, he, hsnd⟩ := List.mem_map.1 hgm
  simp only at hsnd
  subst hsnd
  have hchar := group_files_entry he
  subst hchar
  have haf := (List.mem_filter.1 ha).1
  have hbf := (List.mem_filter.1 hb).1
  have hka := (List.mem_filter.1 ha).2
  have hkb := (List.mem_filter.1 hb).2
  simp only [decide_eq_true_eq] at hka hkb
  have hkeys : key_hash sha fs a = key_hash sha fs b := by rw [hka, hkb]
  have hcab : content fs a = content fs b := hsha hkeys
  rw [option_eq_some_getD (hread3 a haf) [],
    option_eq_some_getD (hread3 b hbf) []]
  exact congrArg some hcab

/-- Claim C3 counterexample: on input `["a", "b", "c"]` where only `"b"`
cannot be read while `"a"` and `"c"` are identical readable duplicates, the
pipeline aborts with no result at all instead of dropping `"b"` and
returning the remaining Duplicate Set. -/
theorem C3_counterexample :
    fs3W "b" = none ∧ fs3W "a" = some [7] ∧ fs3W "c" = some [7] ∧
      filter_duplicate_files fs3W shaW ["a", "b", "c"] none = none := by
  refine ⟨by decide, by decide, by decide, ?_⟩
  exact @pipeline_aborts fs3W shaW ["a", "b", "c"] "b" none (by decide) (by decide)

/-- Claim C3 amended: a File Reference that is unreadable at a stage's read
is not dropped — the uncaught exception aborts the whole pipeline, which
returns no result. -/
theorem C3_amended_abort (fs : FS) (sha : List Nat → List Nat)
    (files : List FPath) (top : Option Int) (f : FPath) (hf : f ∈ files)
    (hbad : fs f = none) :
    filter_duplicate_files fs sha files top = none :=
  pipeline_aborts fs sha top hf hbad

/-- Witness for the amended C3 at a concrete input. -/
theorem C3_witness :
    filter_duplicate_files fs3W shaW ["a", "b"] none = none :=
  C3_amended_abort fs3W shaW ["a", "b"] none "b" (by decide) (by decide)

/-- Claim C4: with a positive `top` the size stage keeps at most `top * top`
surviving groups and exactly a leading segment of the sorted (largest-first)
survivors, the CRC stage keeps at most `top * 2` of its largest survivors,
the full-hash stage is never truncated (every multi-member hash group is
returned), and a `top` of `None` or `0` disables truncation at every
stage. -/
theorem C4_truncation_budgets (fs : FS) (sha : List Nat → List Nat)
    (files : List FPath) (t : Int) (ht : 0 < t)
    (g1 : List (Nat × List FPath)) (g2 : List (Nat × List FPath))
    (g3 : List (List Nat × List FPath))
    (h1 : sizeStage fs files = some g1)
    (h2 : crcStage fs (next_files g1 (size_budget (some t))) = some g2)
    (h3 : hashStage sha fs (next_files g2 (crc_budget (some t))) = some g3) :
    (kept_groups (g1.map Prod.snd) (size_budget (some t))).length ≤ (t * t).toNat ∧
    kept_groups (g1.map Prod.snd) (size_budget (some t)) <+:
      kept_groups (g1.map Prod.snd) none ∧
    (kept_groups (g2.map Prod.snd) (crc_budget (some t))).length ≤ (t * 2).toNat ∧
    kept_groups (g2.map Prod.snd) (crc_budget (some t)) <+:
      kept_groups (g2.map Prod.snd) none ∧
    filter_duplicate_files fs sha files (some t) =
      some ((g3.map Prod.snd).filter (fun l => decide (1 < l.length))) ∧
    (∀ k ps, (k, ps) ∈ g3 → 1 < ps.length →
      ps ∈ (g3.map Prod.snd).filter (fun l => decide (1 < l.length))) ∧
    size_budget none = none ∧ crc_budget none = none ∧
    size_budget (some 0) = none ∧ crc_budget (some 0) = none := by
  have hne : ¬(t = 0) := by omega
  have hsb : size_budget (some t) = some (t * t) := by simp [size_budget, hne]
  have hcb : crc_budget (some t) = some (t * 2) := by simp [crc_budget, hne]
  refine ⟨?_, kept_groups_isPre _ _, ?_, kept_groups_isPre _ _, ?_, ?_, rfl, rfl,
    by simp [size_budget], by simp [crc_budget]⟩
  · rw [hsb]
    exact kept_groups_length_le _ (by positivity)
  · rw [hcb]
    exact kept_groups_length_le _ (by positivity)
  · exact filter_duplicate_files_eq_some.2 ⟨g1, g2, g3, h1, h2, h3, rfl⟩
  · intro k ps hm hlen
    exact List.mem_filter.2 ⟨List.mem_map.2 ⟨(k, ps), hm, rfl⟩, by simp [hlen]⟩

/-- Claim C5 counterexample: `top = -1` is not rejected anywhere — the main
block passes it through unchanged and the pipeline runs to completion on two
identical readable files, returning an (empty!) result instead of raising a
configuration error. -/
theorem C5_counterexample :
    effective_top true false (-1) = some (-1) ∧
      filter_duplicate_files fsW shaW ["a", "b"] (some (-1)) = some [] := by
  constructor
  · decide
  · decide

/-- Claim C5 amended: a negative `top` is not rejected before the pipeline
starts; it is handed to the pipeline, which runs all three stages on
readable inputs with size budget `top * top` (positive) and CRC budget
`top * 2` (negative — a Python slice dropping the trailing groups). -/
theorem C5_amended_negative_top (fs : FS) (sha : List Nat → List Nat)
    (files : List FPath) (t : Int) (ht : t < 0)
    (hread : ∀ p ∈ files, (fs p).isSome) :
    effective_top true false t = some t ∧
      size_budget (some t) = some (t * t) ∧
      crc_budget (some t) = some (t * 2) ∧
      ∃ r, filter_duplicate_files fs sha files (some t) = some r := by
  have hne : ¬(t = 0) := by omega
  refine ⟨?_, by simp [size_budget, hne], by simp [crc_budget, hne],
    ⟨_, pipeline_runs fs sha files (some t) hread⟩⟩
  simp [effective_top, hne]

/-- Claim C6: every returned Duplicate Set has at least two members — a
group with a single member is discarded at the end of every stage, the final
full-hash stage included. -/
theorem C6_min_group_size (fs : FS) (sha : List Nat → List Nat)
    (files : List FPath) (top : Option Int) (r : List (List FPath))
    (hrun : filter_duplicate_files fs sha files top = some r) :
    (∀ g ∈ r, 2 ≤ g.length) ∧
      ∀ (vals : List (List FPath)) (tc : Option Int) (g : List FPath),
        g ∈ kept_groups vals tc → 2 ≤ g.length := by
  constructor
  · intro g hg
    rcases filter_duplicate_files_eq_some.1 hrun with ⟨g1, g2, g3, _, _, _, hr⟩
    subst hr
    have := (List.mem_filter.1 hg).2
    simp only [decide_eq_true_eq] at this
    omega
  · intro vals tc g hg
    exact kept_groups_two_le hg

/-- Claim C7: the candidate list handed to each later stage is a subset of
the one the previous stage received, and the candidate count never grows
across the three stages. -/
theorem C7_monotonic_narrowing (fs : FS) (sha : List Nat → List Nat)
    (files : List FPath) (top : Option Int)
    (g1 : List (Nat × List FPath)) (g2 : List (Nat × List FPath))
    (g3 : List (List Nat × List FPath))
    (h1 : sizeStage fs files = some g1)
    (h2 : crcStage fs (next_files g1 (size_budget top)) = some g2)
    (h3 : hashStage sha fs (next_files g2 (crc_budget top)) = some g3) :
    (∀ p ∈ next_files g1 (size_budget top), p ∈ files) ∧
    (∀ p ∈ next_files g2 (crc_budget top),
      p ∈ next_files g1 (size_budget top)) ∧
    (next_files g1 (size_budget top)).length ≤ files.length ∧
    (next_files g2 (crc_budget top)).length ≤
      (next_files g1 (size_budget top)).length := by
  obtain ⟨_, hg1⟩ := run_stage_eq_group 0 h1
  obtain ⟨_, hg2⟩ := run_stage_eq_group 0 h2
  subst hg1
  subst hg2
  exact ⟨fun p hp => next_files_subset hp, fun p hp => next_files_subset hp,
    next_files_length_le _ _ _, next_files_length_le _ _ _⟩

/-- Claim C8: for every stage group mapping and every (natural) truncation
budget, the code's order — sort all groups including singletons, slice the
first `n`, then drop size-1 groups — produces the same surviving groups and
the same next-stage candidate list as the spec's order — drop size-1 groups
first, then sort the survivors and take the top `n`. -/
theorem C8_truncation_order_refinement (vals : List (List FPath)) (n : Nat) :
    kept_groups vals (some (n : Int)) = spec_kept_groups vals n ∧
      (kept_groups vals (some (n : Int))).flatten = spec_next_files vals n := by
  have h := kept_groups_eq_spec vals n
  refine ⟨h, ?_⟩
  rw [h]
  rfl

/-- Claim C9: the pipeline consists of exactly the three stages size, CRC
and full hash, run in that order; the CRC key is `zlib.adler32` — a 32-bit
value — computed over only the first 1024 bytes of the file, and the hash
key digests the entire file content, reassembled from the streamed
8192-byte chunks. -/
theorem C9_stages_and_keys :
    (∀ (c : List Nat) (f : FPath),
        get_crc_key (fun _ => some c) f = some (adler32 (c.take 1024))) ∧
    (∀ data : List Nat, adler32 data < 2 ^ 32) ∧
    (∀ (sha : List Nat → List Nat) (c : List Nat) (f : FPath),
        get_hash_key sha (fun _ => some c) f = some (sha c)) ∧
    (∀ (fs : FS) (sha : List Nat → List Nat) (files : List FPath)
        (top : Option Int) (r : List (List FPath)),
        filter_duplicate_files fs sha files top = some r ↔
          ∃ g1 g2 g3, sizeStage fs files = some g1 ∧
            crcStage fs (next_files g1 (size_budget top)) = some g2 ∧
            hashStage sha fs (next_files g2 (crc_budget top)) = some g3 ∧
            r = (g3.map Prod.snd).filter (fun l => decide (1 < l.length))) := by
  refine ⟨fun c f => rfl, adler32_lt, fun sha c f => ?_,
    fun _ _ _ _ _ => filter_duplicate_files_eq_some⟩
  exact @get_hash_key_eq sha (fun _ => some c) f rfl

/-- Claim C10: a path occurring twice in the input — even with no other file
sharing its content — keeps both occurrences through every stage (the
pipeline groups path occurrences and never deduplicates its input) and, run
without `top` under a collision-free digest, is returned as the Duplicate
Set `[p, p]`, lying in exactly one returned set. -/
theorem C10_duplicate_path_occurrences (fs : FS) (sha : List Nat → List Nat)
    (files : List FPath) (p : FPath)
    (hread : ∀ q ∈ files, (fs q).isSome)
    (hsha : Function.Injective sha)
    (hcount : files.count p = 2)
    (hothers : ∀ q ∈ files, q ≠ p → fs q ≠ fs p) :
    ∃ r, filter_duplicate_files fs sha files none = some r ∧
      [p, p] ∈ r ∧ r.countP (fun g => decide (p ∈ g)) = 1 := by
  have hp : p ∈ files := by
    by_contra hnp
    rw [List.count_eq_zero.2 hnp] at hcount
    omega
  have hcnt2 : (next_files (group_files (key_size fs) files)
      (size_budget none)).count p = 2 := by
    have h := count_next_files_none (key_size fs) files p (by omega)
    rw [hcount] at h
    exact h
  have hcnt3 : (next_files (group_files (key_crc fs)
      (next_files (group_files (key_size fs) files) (size_budget none)))
      (crc_budget none)).count p = 2 := by
    have h := count_next_files_none (key_crc fs)
      (next_files (group_files (key_size fs) files) (size_budget none)) p
      hcnt2.ge
    rw [hcnt2] at h
    exact h
  have main : ∀ fl3 : List FPath, fl3.count p = 2 → (∀ q ∈ fl3, q ∈ files) →
      ([p, p] ∈ ((group_files (key_hash sha fs) fl3).map Prod.snd).filter
          (fun l => decide (1 < l.length)) ∧
        (((group_files (key_hash sha fs) fl3).map Prod.snd).filter
            (fun l => decide (1 < l.length))).countP
          (fun g => decide (p ∈ g)) = 1) := by
    intro fl3 hc3 hsub
    have hp3 : p ∈ fl3 := by
      by_contra hnp
      rw [List.count_eq_zero.2 hnp] at hc3
      omega
    have hkey_iff : ∀ q ∈ fl3,
        (decide (key_hash sha fs q = key_hash sha fs p)) = (decide (q = p)) := by
      intro q hq
      by_cases hqp : q = p
      · simp [hqp]
      · have hqf : q ∈ files := hsub q hq
        have hqk : ¬(key_hash sha fs q = key_hash sha fs p) := by
          intro hk
          have hcq : content fs q = content fs p := hsha hk
          have hfq : fs q = fs p := by
            rw [option_eq_some_getD (hread q hqf) [],
              option_eq_some_getD (hread p hp) []]
            exact congrArg some hcq
          exact hothers q hqf hqp hfq
        simp [hqk, hqp]
    have hGeq : fl3.filter
        (fun q => decide (key_hash sha fs q = key_hash sha fs p)) = [p, p] := by
      rw [List.filter_congr hkey_iff, List.filter_eq, hc3]
      rfl
    have hment : (key_hash sha fs p,
        fl3.filter (fun q => decide (key_hash sha fs q = key_hash sha fs p))) ∈
        group_files (key_hash sha fs) fl3 := mem_group_files_self hp3
    rw [hGeq] at hment
    constructor
    · exact List.mem_filter.2 ⟨List.mem_map.2 ⟨_, hment, rfl⟩, by simp⟩
    · exact countP_result_mem (key_hash sha fs) fl3 hp3 hc3.ge
  have hsub2 : ∀ q ∈ next_files (group_files (key_size fs) files)
      (size_budget none), q ∈ files := fun q hq => next_files_subset hq
  have hsub3 : ∀ q ∈ next_files (group_files (key_crc fs)
      (next_files (group_files (key_size fs) files) (size_budget none)))
      (crc_budget none), q ∈ files :=
    fun q hq => hsub2 q (next_files_subset hq)
  obtain ⟨hmem, hcnt⟩ := main _ hcnt3 hsub3
  exact ⟨_, pipeline_runs fs sha files none hread, hmem, hcnt⟩

/-! ### Witnesses -/

/-- Witness: C1 at two identical one-byte files. -/
theorem C1_witness :
    ∃ r, filter_duplicate_files fsW shaW ["a", "b"] none = some r ∧
      r.countP (fun g => decide ("a" ∈ g ∧ "b" ∈ g)) = 1 :=
  C1_identical_pair_unique_set fsW shaW ["a", "b"] (by decide) "a" "b"
    (by decide) (by decide) (by decide) (by decide)

/-- Witness: C2 at a concrete run. -/
theorem C2_witness : fsW "a" = fsW "b" :=
  C2_no_false_positives fsW shaW ["a", "b"] none [["a", "b"]]
    Function.injective_id (by decide) ["a", "b"] (by decide) "a" "b"
    (by decide) (by decide)

/-- Witness: C4 at a concrete run with `top = 1`. -/
theorem C4_witness :
    (kept_groups (([(1, ["a", "b"])] : List (Nat × List FPath)).map Prod.snd)
      (size_budget (some 1))).length ≤ ((1 : Int) * 1).toNat :=
  (C4_truncation_budgets fsW shaW ["a", "b"] 1 (by decide)
    [(1, ["a", "b"])] [(524296, ["a", "b"])] [([7], ["a", "b"])]
    (by decide) (by decide) (by decide)).1

/-- Witness: amended C5 at `top = -1`. -/
theorem C5_witness :
    ∃ r, filter_duplicate_files fsW shaW ["a", "b"] (some (-1)) = some r :=
  (C5_amended_negative_top fsW shaW ["a", "b"] (-1) (by decide)
    (by decide)).2.2.2

/-- Witness: C6 at a concrete run. -/
theorem C6_witness : 2 ≤ (["a", "b"] : List FPath).length :=
  (C6_min_group_size fsW shaW ["a", "b"] none [["a", "b"]] (by decide)).1
    ["a", "b"] (by decide)

/-- Witness: C7 at a concrete run. -/
theorem C7_witness : "a" ∈ (["a", "b"] : List FPath) :=
  (C7_monotonic_narrowing fsW shaW ["a", "b"] none
    [(1, ["a", "b"])] [(524296, ["a", "b"])] [([7], ["a", "b"])]
    (by decide) (by decide) (by decide)).1 "a" (by decide)

/-- Witness: C10 at an input repeating one path. -/
theorem C10_witness :
    ∃ r, filter_duplicate_files fsW shaW ["a", "a"] none = some r ∧
      ["a", "a"] ∈ r ∧ r.countP (fun g => decide ("a" ∈ g)) = 1 :=
  C10_duplicate_path_occurrences fsW shaW ["a", "a"] "a" (by decide)
    Function.injective_id (by decide) (by decide)
